import Mathlib

/-!
Verification of the adaptive chunking and multi-tenant vector retrieval
subsystem of the RAGAI repository.  Text is modelled as `List Char`;
Python string slicing (including negative indices), `str.rfind`,
`str.strip` and the regex operations used by `clean_text` are embedded
faithfully.  The segmentation loop of `split_into_chunks` is embedded
with explicit fuel, since its termination is one of the properties under
examination.
-/

namespace RAGAI

/-- Python `\s` character class (ASCII range), as used by `re.sub(r'\s+', ' ', ...)`,
`str.split()` and `str.strip()`. -/
def isSpacePy (c : Char) : Bool :=
  c = ' ' || c = '\t' || c = '\n' || c = '\r' || c = '\x0b' || c = '\x0c'

/-- Python `\w` character class (ASCII range): alphanumeric or underscore. -/
def isWordChar (c : Char) : Bool :=
  c.isAlphanum || c = '_'

/-- The punctuation allow-list of `clean_text`'s second regex:
`[\.\,\?\!\:\;\(\)\[\]\{\}\-\–\—\'\"\x60]`. -/
def isKeptPunct (c : Char) : Bool :=
  c = '.' || c = ',' || c = '?' || c = '!' || c = ':' || c = ';' ||
  c = '(' || c = ')' || c = '[' || c = ']' ||
  c = Char.ofNat 123 || c = Char.ofNat 125 ||
  c = '-' || c = Char.ofNat 0x2013 || c = Char.ofNat 0x2014 ||
  c = Char.ofNat 39 || c = Char.ofNat 34 || c = Char.ofNat 96

/-- Sentence-terminator characters `.`, `!`, `?` (the class `[.!?]`). -/
def isTermChar (c : Char) : Bool :=
  c = '.' || c = '!' || c = '?'

/-- Helper for `collapseWs`: the flag records whether the previous character
belonged to a whitespace run (whose single replacement space was already
emitted). -/
def collapseWsAux : Bool → List Char → List Char
  | _, [] => []
  | inRun, c :: rest =>
    if isSpacePy c then
      if inRun then collapseWsAux true rest else ' ' :: collapseWsAux true rest
    else c :: collapseWsAux false rest

/-- `re.sub(r'\s+', ' ', text)`: every maximal run of whitespace is replaced
by a single space. -/
def collapseWs (l : List Char) : List Char := collapseWsAux false l

/-- Python `str.strip()` (whitespace from both ends). -/
def stripPy (l : List Char) : List Char :=
  ((l.dropWhile isSpacePy).reverse.dropWhile isSpacePy).reverse

/-- `clean_text` from `src/utils/text_processing.py`: collapse whitespace
runs to single spaces, delete characters outside the allow-list, then
strip both ends. -/
def clean_text (t : List Char) : List Char :=
  stripPy ((collapseWs t).filter fun c => isWordChar c || isSpacePy c || isKeptPunct c)

/-- Helper for `countRuns`: the flag records whether the previous character
belonged to the current run (already counted). -/
def countRunsAux (p : Char → Bool) : Bool → List Char → Nat
  | _, [] => 0
  | inRun, c :: rest =>
    if p c then (if inRun then 0 else 1) + countRunsAux p true rest
    else countRunsAux p false rest

/-- Number of maximal runs of characters satisfying `p`
(e.g. `len(text.split())` is `countRuns (fun c => !isSpacePy c)`,
`len(re.findall(r'[.!?]+', text))` is `countRuns isTermChar`). -/
def countRuns (p : Char → Bool) (l : List Char) : Nat := countRunsAux p false l

/-- The three runtime-configurable chunk sizes (defaults 300/500/800). -/
structure ChunkCfg where
  small : Nat
  medium : Nat
  large : Nat
deriving DecidableEq, Repr

/-- `estimate_text_density` from `src/utils/text_processing.py`.  Word,
sentence and special-character counts are embedded exactly; the two
ratios are computed in `ℚ` (Python computes them in floating point, which
agrees with the exact rational comparisons for all realistic inputs). -/
def estimate_text_density (cfg : ChunkCfg) (t : List Char) : Nat :=
  if t.isEmpty then cfg.medium
  else
    let wordCount : Nat := countRuns (fun c => !isSpacePy c) t
    let sentenceCount : Nat := if t.any isTermChar then countRuns isTermChar t else 1
    let specialCount : Nat := (t.filter fun c => !isWordChar c && !isSpacePy c).length
    let avgWords : ℚ := (wordCount : ℚ) / (max sentenceCount 1 : ℚ)
    let specRat : ℚ := (specialCount : ℚ) / (max t.length 1 : ℚ)
    if avgWords > 25 ∨ specRat < 0.05 then cfg.large
    else if avgWords < 10 ∨ specRat > 0.15 then cfg.small
    else cfg.medium

/-- Python slice `l[a:b]` with int indices (negative indices count from the
end, out-of-range indices are clamped). -/
def pySlice (l : List Char) (a b : Int) : List Char :=
  let n : Int := l.length
  let a' : Int := if a < 0 then max (n + a) 0 else min a n
  let b' : Int := if b < 0 then max (n + b) 0 else min b n
  (l.take b'.toNat).drop a'.toNat

/-- Python `str.rfind(c)` for a single character: index of the last
occurrence, `-1` if absent. -/
def rfindC : List Char → Char → Int
  | [], _ => -1
  | ch :: rest, c =>
    let r := rfindC rest c
    if r ≥ 0 then r + 1
    else if ch = c then 0 else -1

/-- The `while start < len(text)` loop of `split_into_chunks`
(`src/utils/text_processing.py`, lines 47-87), embedded with fuel; one
unit of fuel per iteration, `none` when fuel runs out before the loop
exits.  The cursor is an `Int` because the Python cursor can become
negative when `chunk_size <= chunk_overlap`. -/
def splitLoop (text : List Char) (cs ov : Nat) : Nat → Int → Option (List (List Char))
  | 0, start => if start < (text.length : Int) then none else some []
  | fuel + 1, start =>
    let n : Int := text.length
    if start < n then
      let e : Int := min (start + (cs : Int)) n
      if e < n then
        let area := pySlice text start (min (start + (cs : Int)) n)
        let lastSent : Int := max (rfindC area '.') (max (rfindC area '?') (rfindC area '!'))
        let lastNl : Int := rfindC area '\n'
        let b1 : Int := if lastSent > (ov : Int) then lastSent else -1
        let best : Int := if lastNl > (ov : Int) ∧ lastNl > b1 then lastNl else b1
        if best ≠ -1 then
          (splitLoop text cs ov fuel (start + best + 1 - (ov : Int))).map
            (fun r => stripPy (pySlice text start (start + best + 1)) :: r)
        else
          (splitLoop text cs ov fuel (e - (ov : Int))).map
            (fun r => stripPy (pySlice text start e) :: r)
      else
        (splitLoop text cs ov fuel e).map
          (fun r => stripPy (pySlice text start e) :: r)
    else some []

/-- `split_into_chunks(text, chunk_size, chunk_overlap)` from
`src/utils/text_processing.py`: clean the text, short-circuit when the
cleaned text fits in one chunk, otherwise run the carving loop and filter
out empty chunks. -/
def split_into_chunks (fuel : Nat) (t : List Char) (cs ov : Nat) :
    Option (List (List Char)) :=
  let text := clean_text t
  if text.length ≤ cs then some (if text.isEmpty then [] else [text])
  else (splitLoop text cs ov fuel 0).map (fun chunks => chunks.filter (fun c => !c.isEmpty))

/-- Variant of `splitLoop` that returns, instead of the chunk strings, the
cursor windows `(start, end)` whose (stripped) slices the loop emits. -/
def splitLoopW (text : List Char) (cs ov : Nat) : Nat → Int → Option (List (Int × Int))
  | 0, start => if start < (text.length : Int) then none else some []
  | fuel + 1, start =>
    let n : Int := text.length
    if start < n then
      let e : Int := min (start + (cs : Int)) n
      if e < n then
        let area := pySlice text start (min (start + (cs : Int)) n)
        let lastSent : Int := max (rfindC area '.') (max (rfindC area '?') (rfindC area '!'))
        let lastNl : Int := rfindC area '\n'
        let b1 : Int := if lastSent > (ov : Int) then lastSent else -1
        let best : Int := if lastNl > (ov : Int) ∧ lastNl > b1 then lastNl else b1
        if best ≠ -1 then
          (splitLoopW text cs ov fuel (start + best + 1 - (ov : Int))).map
            (fun r => (start, start + best + 1) :: r)
        else
          (splitLoopW text cs ov fuel (e - (ov : Int))).map (fun r => (start, e) :: r)
      else
        (splitLoopW text cs ov fuel e).map (fun r => (start, e) :: r)
    else some []

/-- Windows of the chunks produced by `split_into_chunks` (positions in the
cleaned text). -/
def splitWindows (fuel : Nat) (t : List Char) (cs ov : Nat) :
    Option (List (Int × Int)) :=
  let text := clean_text t
  if text.length ≤ cs then some (if text.isEmpty then [] else [(0, (text.length : Int))])
  else splitLoopW text cs ov fuel 0

/-- Concatenation of the slices of a list of windows, with the first `ov`
characters (the overlap region) removed from every window. -/
def dropConcat (text : List Char) (ov : Nat) : List (Int × Int) → List Char
  | [] => []
  | w :: r => (pySlice text w.1 w.2).drop ov ++ dropConcat text ov r

/-- Concatenation-with-overlap-removed of a window list: the first window's
slice in full, every later window's slice with its first `ov` characters
removed. -/
def reconW (text : List Char) (ov : Nat) : List (Int × Int) → List Char
  | [] => []
  | w :: r => pySlice text w.1 w.2 ++ dropConcat text ov r

/-- Concatenation-with-overlap-removed of the emitted chunk strings. -/
def reconChunks (ov : Nat) : List (List Char) → List Char
  | [] => []
  | c :: r => c ++ (r.map (List.drop ov)).flatten

/-- Variant of `splitLoop` with the newline-boundary preference removed:
the chosen split point is the last qualifying sentence terminator, or the
exact `chunk_size` cut. -/
def splitLoopNoNl (text : List Char) (cs ov : Nat) : Nat → Int → Option (List (List Char))
  | 0, start => if start < (text.length : Int) then none else some []
  | fuel + 1, start =>
    let n : Int := text.length
    if start < n then
      let e : Int := min (start + (cs : Int)) n
      if e < n then
        let area := pySlice text start (min (start + (cs : Int)) n)
        let lastSent : Int := max (rfindC area '.') (max (rfindC area '?') (rfindC area '!'))
        let best : Int := if lastSent > (ov : Int) then lastSent else -1
        if best ≠ -1 then
          (splitLoopNoNl text cs ov fuel (start + best + 1 - (ov : Int))).map
            (fun r => stripPy (pySlice text start (start + best + 1)) :: r)
        else
          (splitLoopNoNl text cs ov fuel (e - (ov : Int))).map
            (fun r => stripPy (pySlice text start e) :: r)
      else
        (splitLoopNoNl text cs ov fuel e).map
          (fun r => stripPy (pySlice text start e) :: r)
    else some []

/-- `split_into_chunks` with the newline-boundary preference removed. -/
def splitIntoChunksNoNl (fuel : Nat) (t : List Char) (cs ov : Nat) :
    Option (List (List Char)) :=
  let text := clean_text t
  if text.length ≤ cs then some (if text.isEmpty then [] else [text])
  else (splitLoopNoNl text cs ov fuel 0).map (fun chunks => chunks.filter (fun c => !c.isEmpty))

/-! ## Document summaries (`src/rag/instance_manager.py`) -/

/-- A `doc_info` dict, restricted to the fields the registry manipulates;
`none` models an absent key. -/
structure DocInfo where
  type? : Option String
  filename? : Option String
  url? : Option String
  chunks? : Option Nat
  size? : Option Nat
  dateAdded? : Option String
  dateUpdated? : Option String
deriving DecidableEq, Repr

/-- The empty dict. -/
def DocInfo.empty : DocInfo := ⟨none, none, none, none, none, none, none⟩

/-- Python `existing_doc.update(doc_info)`: keys present in `d` overwrite
those of `e`, the rest are kept. -/
def dictUpdate (e d : DocInfo) : DocInfo where
  type? := d.type? <|> e.type?
  filename? := d.filename? <|> e.filename?
  url? := d.url? <|> e.url?
  chunks? := d.chunks? <|> e.chunks?
  size? := d.size? <|> e.size?
  dateAdded? := d.dateAdded? <|> e.dateAdded?
  dateUpdated? := d.dateUpdated? <|> e.dateUpdated?

/-- `doc_info.get("type") == "url"`. -/
def isUrlType (d : DocInfo) : Bool := d.type? == some "url"

/-- The value of the key field chosen by `add_document`
(`url` for url-typed dicts, `filename` otherwise); `none` when absent. -/
def keyVal (d : DocInfo) : Option String :=
  if isUrlType d then d.url? else d.filename?

/-- `e.get(key_field)` where the key field was chosen from the incoming dict. -/
def getKeyField (isUrl : Bool) (e : DocInfo) : Option String :=
  if isUrl then e.url? else e.filename?

/-- Replace the first entry satisfying `p` by its image under `f`
(Python mutates the dict found by `next(...)` in place). -/
def updateFirst (p : DocInfo → Bool) (f : DocInfo → DocInfo) : List DocInfo → List DocInfo
  | [] => []
  | e :: r => if p e then f e :: r else e :: updateFirst p f r

/-- `RAGInstance.add_document` (`src/rag/instance_manager.py`, lines 19-29):
look up an existing summary by the key field; if found, merge the dicts,
refresh `chunks` from the live vector count and set `date_updated`;
otherwise append the incoming dict. -/
def add_document (docs : List DocInfo) (vecCount : Nat) (now : String) (d : DocInfo) :
    List DocInfo :=
  match keyVal d with
  | some v =>
    if docs.any (fun e => getKeyField (isUrlType d) e == some v) then
      updateFirst (fun e => getKeyField (isUrlType d) e == some v)
        (fun e => { dictUpdate e d with chunks? := some vecCount, dateUpdated? := some now })
        docs
    else docs ++ [d]
  | none => docs ++ [d]

/-- The registry state of one tenant that the claims touch: its document
ledger and the live record count of its vector store. -/
structure RAGInstance where
  documents_info : List DocInfo
  vecCount : Nat
deriving DecidableEq, Repr

/-- `RAGInstance.add_texts` as far as the ledger claims are concerned:
adding a batch of `k` chunks grows the live vector count by `k`. -/
def RAGInstance.add_texts_count (inst : RAGInstance) (k : Nat) : RAGInstance :=
  { inst with vecCount := inst.vecCount + k }

/-- `RAGInstance.add_document` lifted to the instance. -/
def RAGInstance.addDocument (inst : RAGInstance) (now : String) (d : DocInfo) : RAGInstance :=
  { inst with documents_info := add_document inst.documents_info inst.vecCount now d }

/-- One file ingestion in the style of `process_pdf` / `process_uploaded_file`
(`src/data_store/document_processor.py`): if any chunks were produced, add
them to the store in one batch, then record the document summary carrying
the batch's chunk count. -/
def ingestFile (inst : RAGInstance) (filename : String) (k : Nat) (tAdd tUpd : String) :
    RAGInstance :=
  if k = 0 then inst
  else
    (inst.add_texts_count k).addDocument tUpd
      { DocInfo.empty with
        type? := some "pdf", filename? := some filename,
        chunks? := some k, dateAdded? := some tAdd }

/-- The key-field value identifying a summary, tagged by which field it is
(`true` = url, `false` = filename). -/
def keyOf (e : DocInfo) : Option (Bool × String) :=
  if isUrlType e then e.url?.map (fun v => (true, v)) else e.filename?.map (fun v => (false, v))

/-- At most one summary per distinct key-field value. -/
def keyUnique (docs : List DocInfo) : Prop :=
  docs.Pairwise (fun a b => keyOf a = none ∨ keyOf a ≠ keyOf b)

/-- A dict carries only the key field matching its own type, as every
ingestion path of the repository does (url-typed dicts carry `url` and no
`filename`; all others carry `filename` and no `url`). -/
def singleKeyed (d : DocInfo) : Bool :=
  if isUrlType d then d.filename? == none else d.url? == none

/-- A four-call `add_document` sequence whose third dict is url-typed but
also carries a `filename` key; the fourth call retypes the merged entry
and leaves two summaries keyed by filename "a". -/
def dupKeyScenario : List DocInfo :=
  add_document
    (add_document
      (add_document
        (add_document [] 0 "t" { DocInfo.empty with type? := some "url", url? := some "u" })
        0 "t" { DocInfo.empty with type? := some "pdf", filename? := some "a" })
      0 "t"
      { DocInfo.empty with type? := some "url", url? := some "u", filename? := some "a" })
    0 "t" { DocInfo.empty with type? := some "pdf", filename? := some "a" }

/-! ## Vector store (`src/data_store/chroma_store.py`) -/

/-- The fresh-UUID supply: `k` ids generated in a row from a process-wide
counter (UUID4 values are modelled as distinct naturals). -/
def freshIds (ctr k : Nat) : List Nat := (List.range k).map (ctr + ·)

/-- The store state visible to `add_texts`: whether the underlying
collection initialized, the UUID supply position, and the stored records. -/
structure VecStore where
  available : Bool
  nextFresh : Nat
  recs : List (Nat × String)
deriving DecidableEq, Repr

/-- `ChromaVectorStore.add_texts` (`src/data_store/chroma_store.py`,
lines 62-82): empty batches and an unavailable collection return `[]`;
absent ids are generated fresh; a supplied id list containing duplicates
is discarded wholesale and regenerated (one fresh UUID per text). -/
def VecStore.add_texts (st : VecStore) (texts : List String) (ids? : Option (List Nat)) :
    VecStore × List Nat :=
  if texts.isEmpty then (st, [])
  else if !st.available then (st, [])
  else
    let ids1 := match ids? with
      | none => freshIds st.nextFresh texts.length
      | some l => l
    let ids := if ids1.Nodup then ids1 else freshIds st.nextFresh texts.length
    ({ st with recs := st.recs ++ ids.zip texts, nextFresh := st.nextFresh + texts.length },
     ids)

/-- One formatted search result. -/
structure SearchHit where
  id : Nat
  content : String
  metadata : String
  score : ℚ
deriving DecidableEq, Repr

/-- The parallel arrays returned by the index collaborator's `query`. -/
structure QueryRes where
  ids : List Nat
  docs : List String
  metas : List String
  dists : List ℚ

/-- The index collaborator behind one collection: its record count and its
`query(query_texts=[q], n_results=n)` behaviour; `none` models a raised
exception. -/
structure Collection where
  count : Nat
  query : String → Nat → Option QueryRes

/-- A `ChromaVectorStore` for searching: `collection = none` models a
collection that failed to initialize. -/
structure CStore where
  collection : Option Collection

/-- The formatting loop of `similarity_search`: zip documents, metadatas
and distances, score by `1 - distance`, index ids positionally (`none`
models the `IndexError` raised when the id array is too short, which the
surrounding `except` maps to `[]`). -/
def formatResults (r : QueryRes) : Option (List SearchHit) :=
  let triples := r.docs.zip (r.metas.zip r.dists)
  if triples.length ≤ r.ids.length then
    some ((r.ids.zip triples).map fun p => ⟨p.1, p.2.1, p.2.2.1, 1 - p.2.2.2⟩)
  else none

/-- `ChromaVectorStore.similarity_search` (`src/data_store/chroma_store.py`,
lines 84-116): uninitialized collection or an empty store return `[]`
without querying; otherwise the index is queried with
`n_results = min(k, count)` and any exception is mapped to `[]`. -/
def similarity_search (st : CStore) (q : String) (k : Nat) : List SearchHit :=
  match st.collection with
  | none => []
  | some c =>
    if c.count = 0 then []
    else
      match c.query q (min k c.count) with
      | none => []
      | some r => (formatResults r).getD []

/-- `ChromaVectorStore.get_count`. -/
def storeCount (st : CStore) : Nat :=
  match st.collection with
  | none => 0
  | some c => c.count

/-! ## Registry deletion (`src/rag/instance_manager.py`) -/

/-- A registered tenant as far as deletion is concerned: the outcome its
vector store's `delete_collection()` call will report. -/
structure TenantInst where
  deleteOk : Bool
deriving DecidableEq, Repr

/-- The Streamlit session state owned by the registry. -/
structure SessionState where
  instances : List (Nat × TenantInst)
  currentInst : Option Nat
  messages : List String
deriving DecidableEq, Repr

/-- `delete_rag_instance` (`src/rag/instance_manager.py`, lines 72-81):
look the tenant up; call its store's delete; only on success remove the
record, and if the deleted tenant was the active one clear the active
selection and the chat history. -/
def delete_rag_instance (st : SessionState) (iid : Nat) : SessionState × Bool :=
  match st.instances.find? (fun p => p.1 == iid) with
  | none => (st, false)
  | some p =>
    if p.2.deleteOk then
      let insts := st.instances.filter (fun r => r.1 != iid)
      if st.currentInst = some iid then (⟨insts, none, []⟩, true)
      else ({ st with instances := insts }, true)
    else (st, false)

/-! ## Spec-side definitions (stated from the specification's wording, for
comparison against the embedded code) -/

/-- The decision table's `avg_words_per_sentence`: word count divided by
the number of sentence-terminator runs, taken as at least 1. -/
def avgWordsPerSentence (t : List Char) : ℚ :=
  (countRuns (fun c => !isSpacePy c) t : ℚ) / (max (countRuns isTermChar t) 1 : ℚ)

/-- The decision table's `special_char_ratio`: number of non-word,
non-space characters divided by the text length, taken as at least 1. -/
def specialCharShare (t : List Char) : ℚ :=
  ((t.filter fun c => !isWordChar c && !isSpacePy c).length : ℚ) / (max t.length 1 : ℚ)

/-- The re-ingestion scenario: starting from a fresh tenant, ingest a file
under a fixed filename producing `k1` chunks, then re-ingest the same
filename producing `k2` chunks. -/
def reingestScenario (fn : String) (k1 k2 : Nat) (t1 t2 t3 t4 : String) : RAGInstance :=
  ingestFile (ingestFile ⟨[], 0⟩ fn k1 t1 t2) fn k2 t3 t4

/-! ## Helper lemmas -/

theorem countRunsAux_eq_zero (p : Char → Bool) (b : Bool) (l : List Char)
    (h : ∀ c ∈ l, p c = false) : countRunsAux p b l = 0 := by
  induction l generalizing b with
  | nil => rfl
  | cons c rest ih =>
    have hc := h c (by simp)
    simp only [countRunsAux, hc, Bool.false_eq_true, if_false]
    exact ih _ fun d hd => h d (by simp [hd])

theorem freshIds_length (ctr k : Nat) : (freshIds ctr k).length = k := by
  simp [freshIds]

theorem freshIds_nodup (ctr k : Nat) : (freshIds ctr k).Nodup :=
  List.Nodup.map (fun i j h => by omega) (List.nodup_range k)

theorem mem_pySlice {x : Char} {l : List Char} {a b : Int} (h : x ∈ pySlice l a b) :
    x ∈ l :=
  (List.take_sublist _ _).subset ((List.drop_sublist _ _).subset h)

theorem rfindC_eq_neg_of_not_mem {l : List Char} {c : Char} (h : c ∉ l) :
    rfindC l c = -1 := by
  induction l with
  | nil => rfl
  | cons ch rest ih =>
    have hne : ch ≠ c := fun hx => h (hx ▸ List.mem_cons_self _ _)
    have hr : rfindC rest c = -1 := ih (fun hm => h (List.mem_cons_of_mem _ hm))
    simp [rfindC, hr, hne]

theorem neg_one_le_rfindC (l : List Char) (c : Char) : -1 ≤ rfindC l c := by
  induction l with
  | nil => simp [rfindC]
  | cons ch rest ih =>
    rw [rfindC]
    split_ifs <;> omega

theorem rfindC_lt_length (l : List Char) (c : Char) : rfindC l c < (l.length : Int) := by
  induction l with
  | nil => simp [rfindC]
  | cons ch rest ih =>
    rw [rfindC]
    simp only [List.length_cons]
    split_ifs <;> push_cast <;> omega

theorem mem_of_stripPy {x : Char} {l : List Char} (h : x ∈ stripPy l) : x ∈ l := by
  unfold stripPy at h
  rw [List.mem_reverse] at h
  have h1 := (List.dropWhile_sublist _).subset h
  rw [List.mem_reverse] at h1
  exact (List.dropWhile_sublist _).subset h1

theorem mem_collapseWsAux {c : Char} {b : Bool} {l : List Char}
    (h : c ∈ collapseWsAux b l) : c = ' ' ∨ (c ∈ l ∧ isSpacePy c = false) := by
  induction l generalizing b with
  | nil => simp [collapseWsAux] at h
  | cons d rest ih =>
    by_cases hd : isSpacePy d
    · rw [collapseWsAux, if_pos hd] at h
      cases b with
      | true =>
        rcases ih h with h1 | ⟨h2, h3⟩
        · exact Or.inl h1
        · exact Or.inr ⟨List.mem_cons_of_mem _ h2, h3⟩
      | false =>
        rcases List.mem_cons.mp h with h1 | h1
        · exact Or.inl h1
        · rcases ih h1 with h2 | ⟨h2, h3⟩
          · exact Or.inl h2
          · exact Or.inr ⟨List.mem_cons_of_mem _ h2, h3⟩
    · rw [collapseWsAux, if_neg hd] at h
      rcases List.mem_cons.mp h with h1 | h1
      · subst h1
        exact Or.inr ⟨List.mem_cons_self _ _, Bool.eq_false_iff.mpr hd⟩
      · rcases ih h1 with h2 | ⟨h2, h3⟩
        · exact Or.inl h2
        · exact Or.inr ⟨List.mem_cons_of_mem _ h2, h3⟩

theorem nl_not_mem_clean (t : List Char) : '\n' ∉ clean_text t := by
  intro h
  have h1 := mem_of_stripPy h
  have h2 := (List.mem_filter.mp h1).1
  rcases mem_collapseWsAux h2 with h3 | ⟨_, h4⟩
  · exact absurd h3 (by decide)
  · exact absurd h4 (by decide)

theorem splitLoop_eq_noNl (text : List Char) (cs ov : Nat) (hnl : '\n' ∉ text) :
    ∀ fuel (start : Int),
      splitLoop text cs ov fuel start = splitLoopNoNl text cs ov fuel start := by
  intro fuel
  induction fuel with
  | zero => intro start; rfl
  | succ f ih =>
    intro start
    have harea : ∀ a b : Int, rfindC (pySlice text a b) '\n' = -1 := fun a b =>
      rfindC_eq_neg_of_not_mem (fun hm => hnl (mem_pySlice hm))
    have hneg : ¬((-1 : Int) > (ov : Int)) := by omega
    rw [splitLoop, splitLoopNoNl]
    simp only [harea, hneg, false_and, if_false, ih]

theorem splitLoop_ab_diverges (fuel : Nat) :
    ∀ start : Int, start ≤ 0 →
      splitLoop ('a' :: 'b' :: []) 1 100 fuel start = none := by
  have hrf : ∀ (ch : Char), ch ∉ (('a' :: 'b' :: []) : List Char) →
      ∀ a b : Int, rfindC (pySlice ('a' :: 'b' :: []) a b) ch = -1 := fun ch hch a b =>
    rfindC_eq_neg_of_not_mem (fun hm => hch (mem_pySlice hm))
  induction fuel with
  | zero =>
    intro s hs
    rw [splitLoop]
    rw [if_pos (by simp; omega)]
  | succ f ih =>
    intro s hs
    rw [splitLoop]
    simp only [List.length_cons, List.length_nil, hrf '.' (by decide), hrf '?' (by decide),
      hrf '!' (by decide), hrf '\n' (by decide), max_self]
    have h2 : ((0 + 1 + 1 : Nat) : Int) = 2 := by norm_num
    rw [h2]
    rw [if_pos (by omega : s < (2:Int))]
    have hmin : min (s + ((1 : Nat) : Int)) 2 = s + 1 := by
      simp only [Nat.cast_one]
      omega
    rw [hmin]
    rw [if_pos (by omega : s + 1 < (2:Int))]
    rw [if_neg (by omega : ¬((-1 : Int) > ((100 : Nat) : Int)))]
    rw [if_neg (by simp : ¬((-1 : Int) > ((100 : Nat) : Int) ∧ (-1 : Int) > (-1 : Int)))]
    rw [if_neg (by simp : ¬((-1 : Int) ≠ -1))]
    rw [ih (s + 1 - ((100 : Nat) : Int)) (by push_cast; omega)]
    rfl

theorem splitLoop_isSome (text : List Char) (cs ov : Nat) (hov : ov < cs) :
    ∀ (fuel : Nat) (s : Int), 0 ≤ s → (text.length : Int) ≤ s + fuel →
      (splitLoop text cs ov fuel s).isSome = true := by
  intro fuel
  induction fuel with
  | zero =>
    intro s h0 hf
    rw [splitLoop, if_neg (by omega)]
    rfl
  | succ f ih =>
    intro s h0 hf
    by_cases hs : s < (text.length : Int)
    · rw [splitLoop, if_pos hs]
      have hcs : (ov : Int) < (cs : Int) := by exact_mod_cast hov
      simp only [apply_ite Option.isSome, Option.isSome_map']
      split_ifs with h1 h2 <;> refine ih _ ?_ ?_ <;> omega
    · rw [splitLoop, if_neg hs]
      rfl

theorem pySlice_eq (l : List Char) (a b : Int) (h0 : 0 ≤ a) (hab : a ≤ b)
    (hb : b ≤ (l.length : Int)) :
    pySlice l a b = (l.drop a.toNat).take ((b - a).toNat) := by
  simp only [pySlice]
  rw [if_neg (by omega), if_neg (by omega), min_eq_left (by omega), min_eq_left (by omega)]
  rw [List.drop_take]
  congr 1
  omega

theorem pySlice_length (l : List Char) (a b : Int) (h0 : 0 ≤ a) (hab : a ≤ b)
    (hb : b ≤ (l.length : Int)) : ((pySlice l a b).length : Int) = b - a := by
  rw [pySlice_eq l a b h0 hab hb, List.length_take, List.length_drop]
  omega

theorem pySlice_full (l : List Char) : pySlice l 0 (l.length : Int) = l := by
  rw [pySlice_eq l 0 _ le_rfl (by omega) le_rfl]
  simp

theorem pySlice_append (l : List Char) (a b c : Int) (h0 : 0 ≤ a) (hab : a ≤ b)
    (hbc : b ≤ c) (hc : c ≤ (l.length : Int)) :
    pySlice l a b ++ pySlice l b c = pySlice l a c := by
  rw [pySlice_eq l a b h0 hab (by omega), pySlice_eq l b c (by omega) hbc hc,
    pySlice_eq l a c h0 (by omega) hc]
  have hd : l.drop b.toNat = (l.drop a.toNat).drop ((b - a).toNat) := by
    rw [List.drop_drop]
    congr 1
    omega
  have hsum : (c - a).toNat = (b - a).toNat + (c - b).toNat := by omega
  rw [hsum, List.take_add, hd]

theorem pySlice_drop (l : List Char) (a b : Int) (k : Nat) (h0 : 0 ≤ a)
    (hk : a + k ≤ b) (hb : b ≤ (l.length : Int)) :
    (pySlice l a b).drop k = pySlice l (a + k) b := by
  rw [pySlice_eq l a b h0 (by omega) hb, pySlice_eq l (a + k) b (by omega) (by omega) hb]
  rw [List.drop_take, List.drop_drop]
  have e1 : (b - a).toNat - k = (b - (a + k)).toNat := by omega
  have e2 : a.toNat + k = (a + k).toNat := by omega
  rw [e1, e2]

theorem head_dropWhile_not (p : Char → Bool) (l : List Char) :
    ∀ x ∈ (l.dropWhile p).head?, p x = false := by
  induction l with
  | nil => simp
  | cons a as ih =>
    by_cases ha : p a
    · rw [List.dropWhile_cons_of_pos ha]
      exact ih
    · rw [List.dropWhile_cons_of_neg ha]
      intro x hx
      simp only [List.head?_cons, Option.mem_some_iff] at hx
      subst hx
      exact Bool.eq_false_iff.mpr ha

theorem dropWhile_eq_self_of_head (p : Char → Bool) (l : List Char)
    (h : ∀ x ∈ l.head?, p x = false) : l.dropWhile p = l := by
  cases l with
  | nil => rfl
  | cons a as =>
    have ha := h a (by simp)
    rw [List.dropWhile_cons_of_neg (by simp [ha])]

theorem head_eq_of_prefix (l1 l2 : List Char) (h : l1 <+: l2) (hne : l1 ≠ []) :
    l2.head? = l1.head? := by
  obtain ⟨t, rfl⟩ := h
  cases l1 with
  | nil => exact absurd rfl hne
  | cons a as => rfl

theorem stripPy_idem (l : List Char) : stripPy (stripPy l) = stripPy l := by
  have hdef : ∀ m : List Char, stripPy m = List.rdropWhile isSpacePy (m.dropWhile isSpacePy) :=
    fun m => rfl
  rw [hdef, hdef]
  by_cases hR : List.rdropWhile isSpacePy (l.dropWhile isSpacePy) = []
  · rw [hR]
    simp [List.rdropWhile]
  · have hdw : (List.rdropWhile isSpacePy (l.dropWhile isSpacePy)).dropWhile isSpacePy
        = List.rdropWhile isSpacePy (l.dropWhile isSpacePy) := by
      apply dropWhile_eq_self_of_head
      intro x hx
      have hpre := List.rdropWhile_prefix (p := isSpacePy) (l := l.dropWhile isSpacePy)
      rw [← head_eq_of_prefix _ _ hpre hR] at hx
      exact head_dropWhile_not isSpacePy l x hx
    rw [hdw, List.rdropWhile_idempotent]

theorem splitLoop_eq_mapW (text : List Char) (cs ov : Nat) :
    ∀ (fuel : Nat) (s : Int),
      splitLoop text cs ov fuel s =
        (splitLoopW text cs ov fuel s).map
          (List.map (fun w => stripPy (pySlice text w.1 w.2))) := by
  intro fuel
  induction fuel with
  | zero =>
    intro s
    rw [splitLoop, splitLoopW]
    split_ifs <;> rfl
  | succ f ih =>
    intro s
    rw [splitLoop, splitLoopW]
    simp only [ih, Option.map_map]
    split_ifs <;>
      first
        | rfl
        | (rw [Option.map_map]; refine Option.map_congr fun r hr => ?_; simp)

theorem windows_cons_assemble (text : List Char) (ov : Nat) (s b : Int)
    (rest : List (Int × Int))
    (h0 : 0 ≤ s) (hsb : s + (ov : Int) < b) (hbn : b < (text.length : Int))
    (Hhead : rest.head?.map Prod.fst = some (b - (ov : Int)))
    (Hbounds : ∀ w ∈ rest, 0 ≤ w.1 ∧ w.1 + (ov : Int) < w.2 ∧ w.2 ≤ (text.length : Int))
    (Hchain : List.Chain' (fun w1 w2 => w2.1 = w1.2 - (ov : Int)) rest)
    (Hrecon : reconW text ov rest = pySlice text (b - (ov : Int)) (text.length : Int)) :
    (((s, b) :: rest).head?.map Prod.fst = some s) ∧
    (∀ w ∈ (s, b) :: rest, 0 ≤ w.1 ∧ w.1 + (ov : Int) < w.2 ∧ w.2 ≤ (text.length : Int)) ∧
    List.Chain' (fun w1 w2 => w2.1 = w1.2 - (ov : Int)) ((s, b) :: rest) ∧
    reconW text ov ((s, b) :: rest) = pySlice text s (text.length : Int) := by
  rcases rest with _ | ⟨y, l⟩
  · simp at Hhead
  · have hy : y.1 = b - (ov : Int) := by simpa using Hhead
    have hyb := Hbounds y (List.mem_cons_self _ _)
    refine ⟨rfl, ?_, ?_, ?_⟩
    · intro w hw
      rcases List.mem_cons.mp hw with h | h
      · subst h
        exact ⟨h0, hsb, by omega⟩
      · exact Hbounds w h
    · exact List.chain'_cons.mpr ⟨by simpa using hy, Hchain⟩
    · have hylen : ov ≤ (pySlice text y.1 y.2).length := by
        have := pySlice_length text y.1 y.2 hyb.1 (by omega) hyb.2.2
        omega
      have hstep : dropConcat text ov (y :: l) = (reconW text ov (y :: l)).drop ov := by
        rw [reconW, dropConcat, List.drop_append_of_le_length hylen]
      rw [reconW]
      simp only []
      rw [hstep, Hrecon]
      rw [pySlice_drop text (b - (ov : Int)) (text.length : Int) ov (by omega) (by omega)
        le_rfl]
      have hb2 : b - (ov : Int) + (ov : Int) = b := by omega
      rw [hb2]
      exact pySlice_append text s b (text.length : Int) h0 (by omega) (by omega) le_rfl

theorem splitLoopW_spec (text : List Char) (cs ov : Nat) (hov : ov < cs) :
    ∀ (fuel : Nat) (s : Int) (ws : List (Int × Int)),
      0 ≤ s → s + (ov : Int) < (text.length : Int) →
      splitLoopW text cs ov fuel s = some ws →
      (ws.head?.map Prod.fst = some s) ∧
      (∀ w ∈ ws, 0 ≤ w.1 ∧ w.1 + (ov : Int) < w.2 ∧ w.2 ≤ (text.length : Int)) ∧
      List.Chain' (fun w1 w2 => w2.1 = w1.2 - (ov : Int)) ws ∧
      reconW text ov ws = pySlice text s (text.length : Int) := by
  have hcs : (ov : Int) < (cs : Int) := by exact_mod_cast hov
  intro fuel
  induction fuel with
  | zero =>
    intro s ws h0 hlt heq
    rw [splitLoopW, if_pos (show s < (text.length : Int) by omega)] at heq
    exact absurd heq (by simp)
  | succ f ih =>
    intro s ws h0 hlt heq
    simp only [splitLoopW] at heq
    rw [if_pos (show s < (text.length : Int) by omega)] at heq
    set A := pySlice text s (min (s + (cs : Int)) (text.length : Int)) with hA
    set LS : Int := max (rfindC A '.') (max (rfindC A '?') (rfindC A '!')) with hLS
    have hAlen : (A.length : Int) = min (s + (cs : Int)) (text.length : Int) - s := by
      rw [hA]
      exact pySlice_length text s _ h0 (by omega) (by omega)
    have hLSlt : LS < (A.length : Int) := by
      rw [hLS]
      have h1 := rfindC_lt_length A '.'
      have h2 := rfindC_lt_length A '?'
      have h3 := rfindC_lt_length A '!'
      omega
    by_cases hEnd : min (s + (cs : Int)) (text.length : Int) < (text.length : Int)
    · rw [if_pos hEnd] at heq
      set LN : Int := rfindC A '\n' with hLN
      have hLNlt : LN < (A.length : Int) := by
        rw [hLN]
        exact rfindC_lt_length A '\n'
      set B1 : Int := if LS > (ov : Int) then LS else -1 with hB1
      set BST : Int := if LN > (ov : Int) ∧ LN > B1 then LN else B1 with hBST
      have hBSTcase : BST = -1 ∨ ((ov : Int) < BST ∧ BST < (A.length : Int)) := by
        rw [hBST, hB1]
        split_ifs <;> omega
      by_cases hBne : BST ≠ -1
      · rw [if_pos hBne] at heq
        obtain ⟨rest, hrest, hws⟩ := Option.map_eq_some'.mp heq
        have hBgt : (ov : Int) < BST ∧ BST < (A.length : Int) := by
          rcases hBSTcase with h | h
          · exact absurd h hBne
          · exact h
        have hih := ih (s + BST + 1 - (ov : Int)) rest (by omega) (by omega) hrest
        have hasm := windows_cons_assemble text ov s (s + BST + 1) rest h0 (by omega)
          (by omega) hih.1 hih.2.1 hih.2.2.1 hih.2.2.2
        rw [← hws]
        exact hasm
      · rw [if_neg hBne] at heq
        obtain ⟨rest, hrest, hws⟩ := Option.map_eq_some'.mp heq
        have hih := ih (min (s + (cs : Int)) (text.length : Int) - (ov : Int)) rest
          (by omega) (by omega) hrest
        have hasm := windows_cons_assemble text ov s
          (min (s + (cs : Int)) (text.length : Int)) rest h0 (by omega) (by omega)
          hih.1 hih.2.1 hih.2.2.1 hih.2.2.2
        rw [← hws]
        exact hasm
    · rw [if_neg hEnd] at heq
      obtain ⟨rest, hrest, hws⟩ := Option.map_eq_some'.mp heq
      have hrest_nil : rest = [] := by
        cases f with
        | zero =>
          rw [splitLoopW, if_neg hEnd] at hrest
          exact (Option.some.injEq _ _ ▸ hrest).symm
        | succ f2 =>
          simp only [splitLoopW] at hrest
          rw [if_neg hEnd] at hrest
          exact (Option.some.injEq _ _ ▸ hrest).symm
      subst hrest_nil
      rw [← hws]
      have hminn : min (s + (cs : Int)) (text.length : Int) = (text.length : Int) := by
        omega
      refine ⟨by simp, ?_, ?_, ?_⟩
      · intro w hw
        rcases List.mem_cons.mp hw with h | h
        · subst h
          refine ⟨h0, by omega, by omega⟩
        · simp at h
      · exact List.chain'_singleton _
      · rw [reconW, dropConcat, List.append_nil]
        rw [hminn]

theorem stripPy_clean (t : List Char) : stripPy (clean_text t) = clean_text t := by
  rw [clean_text]
  exact stripPy_idem _

theorem keyOf_eq_none_of_keyVal (d : DocInfo) (h : keyVal d = none) : keyOf d = none := by
  by_cases hurl : isUrlType d
  · simp only [keyVal, if_pos hurl] at h
    simp [keyOf, hurl, h]
  · simp only [keyVal, if_neg hurl] at h
    simp [keyOf, hurl, h]

theorem keyOf_of_keyVal (d : DocInfo) (v : String) (h : keyVal d = some v) :
    keyOf d = some (isUrlType d, v) := by
  by_cases hurl : isUrlType d
  · simp only [keyVal, if_pos hurl] at h
    simp [keyOf, hurl, h]
  · simp only [keyVal, if_neg hurl] at h
    simp [keyOf, hurl, h]

theorem keyOf_some_elim (a : DocInfo) (tag : Bool) (v : String)
    (h : keyOf a = some (tag, v)) :
    getKeyField tag a = some v := by
  by_cases hurl : isUrlType a
  · simp only [keyOf, if_pos hurl] at h
    rcases hu : a.url? with _ | u
    · rw [hu] at h; simp at h
    · rw [hu] at h
      simp only [Option.map_some', Option.some.injEq, Prod.mk.injEq] at h
      rw [← h.1, getKeyField]
      simp [hu, h.2]
  · simp only [keyOf, if_neg hurl] at h
    rcases hf : a.filename? with _ | f
    · rw [hf] at h; simp at h
    · rw [hf] at h
      simp only [Option.map_some', Option.some.injEq, Prod.mk.injEq] at h
      rw [← h.1, getKeyField]
      simp [hf, h.2]

theorem mem_updateFirst {p : DocInfo → Bool} {f : DocInfo → DocInfo} {l : List DocInfo}
    {x : DocInfo} (h : x ∈ updateFirst p f l) :
    x ∈ l ∨ ∃ y ∈ l, p y = true ∧ x = f y := by
  induction l with
  | nil => simp [updateFirst] at h
  | cons e r ih =>
    rw [updateFirst] at h
    by_cases hp : p e
    · rw [if_pos hp] at h
      rcases List.mem_cons.mp h with h1 | h1
      · exact Or.inr ⟨e, List.mem_cons_self _ _, hp, h1⟩
      · exact Or.inl (List.mem_cons_of_mem _ h1)
    · rw [if_neg hp] at h
      rcases List.mem_cons.mp h with h1 | h1
      · exact Or.inl (h1 ▸ List.mem_cons_self _ _)
      · rcases ih h1 with h2 | ⟨y, hy, hpy, hxy⟩
        · exact Or.inl (List.mem_cons_of_mem _ h2)
        · exact Or.inr ⟨y, List.mem_cons_of_mem _ hy, hpy, hxy⟩

theorem keyUnique_updateFirst {p : DocInfo → Bool} {f : DocInfo → DocInfo}
    {l : List DocInfo}
    (hk : ∀ e ∈ l, p e = true → keyOf (f e) = keyOf e)
    (hu : keyUnique l) : keyUnique (updateFirst p f l) := by
  induction l with
  | nil => simp only [updateFirst]; exact hu
  | cons e r ih =>
    simp only [keyUnique, List.pairwise_cons] at hu
    rw [updateFirst]
    by_cases hp : p e
    · rw [if_pos hp]
      simp only [keyUnique, List.pairwise_cons]
      refine ⟨?_, hu.2⟩
      intro x hx
      have hke := hk e (List.mem_cons_self _ _) hp
      rcases hu.1 x hx with h | h
      · exact Or.inl (hke.trans h)
      · exact Or.inr (by rw [hke]; exact h)
    · rw [if_neg hp]
      simp only [keyUnique, List.pairwise_cons]
      constructor
      · intro x hx
        rcases mem_updateFirst hx with h1 | ⟨y, hy, hpy, rfl⟩
        · exact hu.1 x h1
        · have hky := hk y (List.mem_cons_of_mem _ hy) hpy
          rcases hu.1 y hy with h | h
          · exact Or.inl h
          · exact Or.inr (by rw [hky]; exact h)
      · exact ih (fun e2 he2 hp2 => hk e2 (List.mem_cons_of_mem _ he2) hp2) hu.2

theorem updated_entry_spec (e d : DocInfo) (cnt : Nat) (now : String) (v : String)
    (hd : singleKeyed d = true) (he : singleKeyed e = true)
    (hv : keyVal d = some v)
    (hp : (getKeyField (isUrlType d) e == some v) = true) :
    singleKeyed { dictUpdate e d with chunks? := some cnt, dateUpdated? := some now }
        = true ∧
    keyOf { dictUpdate e d with chunks? := some cnt, dateUpdated? := some now }
        = keyOf e := by
  rw [beq_iff_eq] at hp
  by_cases hurl : isUrlType d
  · have hdty : d.type? = some "url" := by
      simpa [isUrlType] using hurl
    have hdu : d.url? = some v := by simpa [keyVal, hurl] using hv
    have hdf : d.filename? = none := by simpa [singleKeyed, hurl] using hd
    have heu : e.url? = some v := by simpa [getKeyField, hurl] using hp
    have heurl : isUrlType e = true := by
      by_contra hne
      have hnone : e.url? = none := by
        simpa [singleKeyed, Bool.not_eq_true _ ▸ hne] using he
      rw [hnone] at heu
      exact absurd heu (by simp)
    have hety : e.type? = some "url" := by simpa [isUrlType] using heurl
    have hef : e.filename? = none := by simpa [singleKeyed, heurl] using he
    constructor
    · simp [singleKeyed, isUrlType, dictUpdate, hdty, hdf, hef]
    · simp [keyOf, isUrlType, dictUpdate, hdty, hdu, heu, hety]
  · have hb : isUrlType d = false := by simpa using hurl
    have hdf : d.filename? = some v := by simpa [keyVal, hurl] using hv
    have hdu : d.url? = none := by simpa [singleKeyed, hurl] using hd
    have hef : e.filename? = some v := by simpa [getKeyField, hb] using hp
    have heurl : isUrlType e = false := by
      by_contra hne
      have hne2 : isUrlType e = true := by simpa using hne
      have hnone : e.filename? = none := by simpa [singleKeyed, hne2] using he
      rw [hnone] at hef
      exact absurd hef (by simp)
    have hetyne : ¬ e.type? = some "url" := by
      intro hcontra
      rw [isUrlType, hcontra] at heurl
      simp at heurl
    have heu : e.url? = none := by simpa [singleKeyed, heurl] using he
    rcases hdt : d.type? with _ | t
    · constructor
      · simp [singleKeyed, isUrlType, dictUpdate, hdt, hdu, heu, hetyne]
      · simp [keyOf, isUrlType, dictUpdate, hdt, hdf, hef, hetyne]
    · have ht : ¬ t = "url" := by
        intro hcontra
        rw [isUrlType, hdt, hcontra] at hb
        simp at hb
      constructor
      · simp [singleKeyed, isUrlType, dictUpdate, hdt, hdu, heu, ht]
      · simp [keyOf, isUrlType, dictUpdate, hdt, hdf, hef, ht, hetyne]

theorem find_filter_ne_key (l : List (Nat × TenantInst)) (iid j : Nat) (hne : j ≠ iid) :
    (l.filter (fun r => r.1 != iid)).find? (fun r => r.1 == j) =
      l.find? (fun r => r.1 == j) := by
  induction l with
  | nil => rfl
  | cons x rest ih =>
    by_cases hx : x.1 = j
    · have h1 : (x.1 != iid) = true := by simp [hx, hne]
      have h2 : (x.1 == j) = true := by simp [hx]
      simp [List.filter_cons, h1, List.find?_cons, h2]
    · have h2 : (x.1 == j) = false := by simp [hx]
      by_cases hk : (x.1 != iid) = true
      · simp [List.filter_cons, hk, List.find?_cons, h2, ih]
      · simp only [Bool.not_eq_true] at hk
        simp [List.filter_cons, hk, List.find?_cons, h2, ih]

/-! ## Claim theorems -/

/-- Claim C8: for every text whose normalized length is at most
`chunk_size`, `split_into_chunks` returns exactly one chunk equal to the
normalized (cleaned) text, and the empty sequence when the normalized
text is empty. -/
theorem split_into_chunks_short_text (fuel : Nat) (t : List Char) (cs ov : Nat)
    (h : (clean_text t).length ≤ cs) :
    split_into_chunks fuel t cs ov =
      some (if (clean_text t).isEmpty then [] else [clean_text t]) := by
  simp [split_into_chunks, h]

/-- Witness for C8 at a concrete short text. -/
theorem split_into_chunks_short_text_witness :
    (clean_text "Tiny text.".toList).length ≤ 500 ∧
      split_into_chunks 0 "Tiny text.".toList 500 100 =
        some (if (clean_text "Tiny text.".toList).isEmpty then []
              else [clean_text "Tiny text.".toList]) :=
  ⟨by decide, split_into_chunks_short_text 0 "Tiny text.".toList 500 100 (by decide)⟩

/-- Claim C6: `estimate_text_density` is total and deterministic; it
returns exactly one of the configured small, medium, large sizes,
following the decision table in order (average words per sentence &gt; 25 or
special-character ratio &lt; 0.05 gives large; else average &lt; 10 or ratio
&gt; 0.15 gives small; else medium), with empty text returning medium. -/
theorem estimate_text_density_table (cfg : ChunkCfg) (t : List Char) :
    estimate_text_density cfg t =
      (if t = [] then cfg.medium
       else if avgWordsPerSentence t > 25 ∨ specialCharShare t < 0.05 then cfg.large
       else if avgWordsPerSentence t < 10 ∨ specialCharShare t > 0.15 then cfg.small
       else cfg.medium) ∧
    (estimate_text_density cfg t = cfg.small ∨ estimate_text_density cfg t = cfg.medium ∨
      estimate_text_density cfg t = cfg.large) := by
  have hmain : estimate_text_density cfg t =
      (if t = [] then cfg.medium
       else if avgWordsPerSentence t > 25 ∨ specialCharShare t < 0.05 then cfg.large
       else if avgWordsPerSentence t < 10 ∨ specialCharShare t > 0.15 then cfg.small
       else cfg.medium) := by
    by_cases ht : t = []
    · simp [estimate_text_density, ht]
    · have hne : t.isEmpty = false := by
        cases t with
        | nil => exact absurd rfl ht
        | cons a l => rfl
      rw [estimate_text_density, avgWordsPerSentence, specialCharShare]
      simp only [hne, Bool.false_eq_true, if_false, if_neg ht]
      by_cases hterm : t.any isTermChar
      · simp [hterm, countRuns]
      · have h0 : countRunsAux isTermChar false t = 0 := by
          refine countRunsAux_eq_zero _ _ _ fun c hc => ?_
          have := List.any_eq_false.mp (Bool.not_eq_true _ ▸ hterm) c hc
          exact Bool.eq_false_iff.mpr this
        simp only [hterm, Bool.false_eq_true, if_false, countRuns, h0]
        norm_num
  refine ⟨hmain, ?_⟩
  rw [hmain]
  split_ifs <;> tauto

/-- Claim C4 (amended): within a tenant the `documents_info` ledger keeps
at most one summary per distinct key-field value, provided every recorded
dict carries only the key field matching its own type (url-typed dicts no
`filename`, others no `url`) — the discipline every ingestion path of the
repository obeys.  `add_document` then preserves both the discipline and
key uniqueness: a present key updates the matching entry in place without
changing its key, and an absent key appends a non-duplicate.  Without the
discipline the invariant is breakable (see the counterexample). -/
theorem add_document_preserves_key_unique (docs : List DocInfo) (cnt : Nat) (now : String)
    (d : DocInfo) (hd : singleKeyed d = true)
    (hdocs : ∀ e ∈ docs, singleKeyed e = true) (hu : keyUnique docs) :
    (∀ e ∈ add_document docs cnt now d, singleKeyed e = true) ∧
    keyUnique (add_document docs cnt now d) := by
  cases hv : keyVal d with
  | none =>
    simp only [add_document, hv]
    have hkd : keyOf d = none := keyOf_eq_none_of_keyVal d hv
    constructor
    · intro e he
      rcases List.mem_append.mp he with h | h
      · exact hdocs e h
      · simp only [List.mem_singleton] at h
        subst h
        exact hd
    · rw [keyUnique, List.pairwise_append]
      refine ⟨hu, List.pairwise_singleton _ _, ?_⟩
      intro a ha b hb
      simp only [List.mem_singleton] at hb
      subst hb
      rcases hka : keyOf a with _ | k
      · exact Or.inl rfl
      · exact Or.inr (by simp [hka, hkd])
  | some v =>
    simp only [add_document, hv]
    by_cases hany : docs.any (fun e => getKeyField (isUrlType d) e == some v)
    · rw [if_pos hany]
      constructor
      · intro e he
        rcases mem_updateFirst he with h | ⟨y, hy, hpy, rfl⟩
        · exact hdocs e h
        · exact (updated_entry_spec y d cnt now v hd (hdocs y hy) hv hpy).1
      · exact keyUnique_updateFirst
          (fun e he hp => (updated_entry_spec e d cnt now v hd (hdocs e he) hv hp).2) hu
    · rw [if_neg hany]
      have hkd : keyOf d = some (isUrlType d, v) := keyOf_of_keyVal d v hv
      constructor
      · intro e he
        rcases List.mem_append.mp he with h | h
        · exact hdocs e h
        · simp only [List.mem_singleton] at h
          subst h
          exact hd
      · rw [keyUnique, List.pairwise_append]
        refine ⟨hu, List.pairwise_singleton _ _, ?_⟩
        intro a ha b hb
        simp only [List.mem_singleton] at hb
        subst hb
        rcases hka : keyOf a with _ | k
        · exact Or.inl rfl
        · refine Or.inr ?_
          rw [hkd]
          intro hcontra
          simp only [Option.some.injEq] at hcontra
          subst hcontra
          have hga := keyOf_some_elim a _ v hka
          exact hany (List.any_eq_true.mpr ⟨a, ha, by simp [hga]⟩)

/-- Witness for C4's amended theorem: recording a pdf dict into a ledger
holding one url summary appends it, keeping keys unique. -/
theorem add_document_preserves_key_unique_witness :
    (singleKeyed { DocInfo.empty with type? := some "pdf", filename? := some "a" } = true ∧
      (∀ e ∈ [{ DocInfo.empty with type? := some "url", url? := some "u" }],
        singleKeyed e = true) ∧
      keyUnique [{ DocInfo.empty with type? := some "url", url? := some "u" }]) ∧
    ((∀ e ∈ add_document [{ DocInfo.empty with type? := some "url", url? := some "u" }] 0 "t"
        { DocInfo.empty with type? := some "pdf", filename? := some "a" },
        singleKeyed e = true) ∧
      keyUnique (add_document [{ DocInfo.empty with type? := some "url", url? := some "u" }]
        0 "t" { DocInfo.empty with type? := some "pdf", filename? := some "a" })) := by
  refine ⟨⟨by decide, by decide, ?_⟩, ?_⟩
  · rw [keyUnique]
    exact List.pairwise_singleton _ _
  · exact add_document_preserves_key_unique _ 0 "t" _ (by decide) (by decide)
      (by rw [keyUnique]; exact List.pairwise_singleton _ _)

/-- Claim C4 counterexample: with a url-typed dict that also carries a
`filename` key, a later filename-keyed update retypes the merged entry
and `documents_info` ends with two summaries whose key-field value is
`filename "a"` — the at-most-one-per-key invariant fails. -/
theorem add_document_dup_key_cex :
    dupKeyScenario.map keyOf = [some (false, "a"), some (false, "a")] ∧
      ¬ keyUnique dupKeyScenario := by
  constructor
  · decide
  · unfold keyUnique
    decide

/-- Claim C5: when the supplied id sequence contains a duplicate, the
whole id set is discarded and one fresh UUID is generated per text, so
the stored ids are pairwise distinct (in particular, two texts supplied
with the same id receive two distinct stored ids). -/
theorem add_texts_regenerates_on_duplicate (st : VecStore) (texts : List String)
    (l : List Nat) (hav : st.available = true) (hne : texts ≠ [])
    (hdup : ¬ l.Nodup) :
    (st.add_texts texts (some l)).2 = freshIds st.nextFresh texts.length ∧
    (st.add_texts texts (some l)).2.length = texts.length ∧
    (st.add_texts texts (some l)).2.Nodup := by
  have hE : texts.isEmpty = false := by
    cases texts with
    | nil => exact absurd rfl hne
    | cons a l2 => rfl
  simp only [VecStore.add_texts, hE, hav, Bool.false_eq_true, if_false, Bool.not_true,
    if_neg hdup]
  refine ⟨by trivial, ?_, ?_⟩
  · exact freshIds_length ..
  · exact freshIds_nodup ..

/-- Claim C1 (amended): whenever `chunk_size` exceeds `chunk_overlap` (in
particular for every `chunk_size ≥ 101` with the default overlap 100),
`split_into_chunks` terminates, the cursor advancing strictly on every
iteration, within at most `len(cleaned text)` loop iterations. -/
theorem split_into_chunks_terminates (t : List Char) (cs ov fuel : Nat)
    (hov : ov < cs) (hfuel : (clean_text t).length ≤ fuel) :
    (split_into_chunks fuel t cs ov).isSome = true := by
  rw [split_into_chunks]
  by_cases h : (clean_text t).length ≤ cs
  · simp [h]
  · simp only [if_neg h, Option.isSome_map']
    refine splitLoop_isSome _ _ _ hov fuel 0 le_rfl ?_
    omega

/-- Witness for C1's amended theorem at the spec's e2e scenario text. -/
theorem split_into_chunks_terminates_witness :
    (4 < 12 ∧
        (clean_text "Alpha sentence. Beta sentence! Gamma sentence?".toList).length ≤ 46) ∧
      (split_into_chunks 46 "Alpha sentence. Beta sentence! Gamma sentence?".toList 12
          4).isSome = true :=
  ⟨⟨by decide, by decide⟩,
    split_into_chunks_terminates _ 12 4 46 (by decide) (by decide)⟩

/-- Claim C1 counterexample: with `chunk_size = 1` (which is `≥ 1`) and the
default overlap 100, `split_into_chunks "ab"` never returns — the cursor
moves backwards in the fallback branch (`start = end - overlap`), so no
iteration budget suffices. -/
theorem split_into_chunks_diverges_cex :
    ¬ ∃ fuel : Nat, (split_into_chunks fuel "ab".toList 1 100).isSome = true := by
  rintro ⟨fuel, h⟩
  have hcl : clean_text "ab".toList = ('a' :: 'b' :: []) := by decide
  simp only [split_into_chunks, hcl] at h
  rw [if_neg (by decide)] at h
  rw [splitLoop_ab_diverges fuel 0 le_rfl] at h
  simp at h

/-- Claim C10: the cleaned text contains no newline (`clean_text` collapses
every whitespace character, newlines included, to a space), so the
newline search inside each window always fails and `split_into_chunks`
equals, as a function, the variant with the newline-boundary preference
removed — every chosen boundary is the last qualifying sentence
terminator or the exact chunk-size cut. -/
theorem split_into_chunks_newline_irrelevant (fuel : Nat) (t : List Char) (cs ov : Nat) :
    split_into_chunks fuel t cs ov = splitIntoChunksNoNl fuel t cs ov := by
  rw [split_into_chunks, splitIntoChunksNoNl]
  simp only [splitLoop_eq_noNl (clean_text t) cs ov (nl_not_mem_clean t)]

/-- Claim C2 (amended): every emitted chunk is non-empty and is the
stripped slice of a cursor window of the cleaned text; consecutive
windows overlap in exactly `overlap` positions (`w2.start = w1.end -
overlap`), and concatenating the raw (unstripped) window slices with each
later window's first `overlap` characters removed reconstructs the
cleaned text exactly.  Exact reconstruction from the emitted chunks
themselves fails in general because chunks are stripped (see the
counterexample). -/
theorem split_chunks_window_spec (t : List Char) (cs ov fuel : Nat) (hov : ov < cs)
    (chunks : List (List Char))
    (h : split_into_chunks fuel t cs ov = some chunks) :
    (∀ c ∈ chunks, c ≠ []) ∧
    ∃ ws, splitWindows fuel t cs ov = some ws ∧
      chunks = (ws.map fun w => stripPy (pySlice (clean_text t) w.1 w.2)).filter
        (fun c => !c.isEmpty) ∧
      List.Chain' (fun w1 w2 => w2.1 = w1.2 - (ov : Int)) ws ∧
      (∀ w ∈ ws, 0 ≤ w.1 ∧ w.1 < w.2 ∧ w.2 ≤ ((clean_text t).length : Int)) ∧
      reconW (clean_text t) ov ws = clean_text t := by
  simp only [split_into_chunks] at h
  by_cases hshort : (clean_text t).length ≤ cs
  · rw [if_pos hshort] at h
    by_cases hemp : (clean_text t).isEmpty
    · simp only [if_pos hemp, Option.some.injEq] at h
      subst h
      have hclean : clean_text t = [] := by
        simpa [List.isEmpty_iff] using hemp
      refine ⟨by simp, [], ?_, by simp, ?_, by simp, ?_⟩
      · simp [splitWindows, if_pos hshort, hemp]
      · exact List.chain'_nil
      · rw [reconW, hclean]
    · simp only [if_neg hemp, Option.some.injEq] at h
      subst h
      have hlen0 : 0 < (clean_text t).length := by
        cases hcl : clean_text t with
        | nil => rw [hcl] at hemp; exact absurd rfl hemp
        | cons a l => simp
      refine ⟨?_, [(0, ((clean_text t).length : Int))], ?_, ?_, ?_, ?_, ?_⟩
      · intro c hc
        simp only [List.mem_singleton] at hc
        subst hc
        intro hfalse
        rw [hfalse] at hemp
        exact hemp rfl
      · simp [splitWindows, if_pos hshort, hemp]
      · have hef : (clean_text t).isEmpty = false := by simpa using hemp
        rw [List.map_singleton, pySlice_full, stripPy_clean, List.filter_singleton]
        simp [hef]
      · exact List.chain'_singleton _
      · intro w hw
        simp only [List.mem_singleton] at hw
        subst hw
        refine ⟨le_rfl, by omega, le_rfl⟩
      · rw [reconW, dropConcat, List.append_nil, pySlice_full]
  · rw [if_neg hshort] at h
    rw [splitLoop_eq_mapW] at h
    rw [Option.map_map] at h
    obtain ⟨ws, hws, hchunks⟩ := Option.map_eq_some'.mp h
    have hlen_gt : cs < (clean_text t).length := by omega
    have hspec := splitLoopW_spec (clean_text t) cs ov hov fuel 0 ws (le_refl 0)
      (by omega) hws
    subst hchunks
    refine ⟨?_, ws, ?_, ?_, ?_, ?_, ?_⟩
    · intro c hc
      simp only [Function.comp_apply] at hc
      have := (List.mem_filter.mp hc).2
      simpa [List.isEmpty_iff] using this
    · simp only [splitWindows, if_neg hshort]
      exact hws
    · simp [Function.comp]
    · exact hspec.2.2.1
    · intro w hw
      have hb := hspec.2.1 w hw
      exact ⟨hb.1, by omega, hb.2.2⟩
    · have hr := hspec.2.2.2
      rwa [pySlice_full] at hr

/-- Witness for C2's amended theorem at a concrete text. -/
theorem split_chunks_window_spec_witness :
    (4 < 12 ∧
        split_into_chunks 30 "abcde fg.hijklmnopqrstuv".toList 12 4 =
          some ["abcde fg.".toList, "fg.hijklmno".toList, "lmnopqrstuv".toList]) ∧
      ((∀ c ∈ ["abcde fg.".toList, "fg.hijklmno".toList, "lmnopqrstuv".toList], c ≠ []) ∧
        ∃ ws, splitWindows 30 "abcde fg.hijklmnopqrstuv".toList 12 4 = some ws ∧
          ["abcde fg.".toList, "fg.hijklmno".toList, "lmnopqrstuv".toList] =
            (ws.map fun w =>
              stripPy (pySlice (clean_text "abcde fg.hijklmnopqrstuv".toList) w.1 w.2)).filter
              (fun c => !c.isEmpty) ∧
          List.Chain' (fun w1 w2 => w2.1 = w1.2 - ((4 : Nat) : Int)) ws ∧
          (∀ w ∈ ws, 0 ≤ w.1 ∧ w.1 < w.2 ∧
            w.2 ≤ ((clean_text "abcde fg.hijklmnopqrstuv".toList).length : Int)) ∧
          reconW (clean_text "abcde fg.hijklmnopqrstuv".toList) 4 ws =
            clean_text "abcde fg.hijklmnopqrstuv".toList) :=
  ⟨⟨by decide, by decide⟩,
    split_chunks_window_spec "abcde fg.hijklmnopqrstuv".toList 12 4 30 (by decide) _
      (by decide)⟩

/-- Claim C2 counterexample: on the text `"abcde fg.hijklmnopqrstuv"`
(chunk size 12, overlap 4) the loop emits a chunk whose leading space is
stripped, so concatenation-with-overlap-removed of the emitted chunks
loses the character `h` and does not reconstruct the cleaned text. -/
theorem split_chunks_reconstruction_cex :
    split_into_chunks 30 "abcde fg.hijklmnopqrstuv".toList 12 4 =
        some ["abcde fg.".toList, "fg.hijklmno".toList, "lmnopqrstuv".toList] ∧
      reconChunks 4 ["abcde fg.".toList, "fg.hijklmno".toList, "lmnopqrstuv".toList] ≠
        clean_text "abcde fg.hijklmnopqrstuv".toList :=
  ⟨by decide, by decide⟩

/-- Claim C3 (amended): ingesting a file twice under the same filename
leaves exactly one ledger entry, whose `chunks` field equals the live
vector count `k1 + k2` — the sum of both batches, because nothing removes
the first batch's vectors and `add_document` refreshes `chunks` from
`get_vector_count()`. -/
theorem reingest_updates_single_entry (fn : String) (k1 k2 : Nat) (t1 t2 t3 t4 : String)
    (h1 : 0 < k1) (h2 : 0 < k2) :
    (reingestScenario fn k1 k2 t1 t2 t3 t4).documents_info.map (fun d => d.chunks?)
        = [some (k1 + k2)] ∧
    (reingestScenario fn k1 k2 t1 t2 t3 t4).vecCount = k1 + k2 := by
  simp +decide [reingestScenario, ingestFile, h1.ne', h2.ne', RAGInstance.addDocument,
    RAGInstance.add_texts_count, add_document, keyVal, isUrlType, getKeyField,
    updateFirst, dictUpdate, DocInfo.empty]

/-- Witness for C3's amended theorem at the scenario's concrete numbers. -/
theorem reingest_updates_single_entry_witness :
    (0 < 10 ∧ 0 < 15) ∧
      (reingestScenario "a.txt" 10 15 "t1" "t2" "t3" "t4").documents_info.map
        (fun d => d.chunks?) = [some (10 + 15)] :=
  ⟨⟨by decide, by decide⟩,
    (reingest_updates_single_entry "a.txt" 10 15 "t1" "t2" "t3" "t4" (by decide)
      (by decide)).1⟩

/-- Claim C3 counterexample: ingesting 10 chunks under `"a.txt"` and then
re-ingesting 15 chunks leaves the single summary's `chunks` at 25 (the
live store count), not 15 as the claim states. -/
theorem reingest_chunks_cex :
    (reingestScenario "a.txt" 10 15 "t1" "t2" "t3" "t4").documents_info.map
        (fun d => d.chunks?) = [some 25] ∧
      ((some 25 : Option Nat) ≠ some 15) :=
  ⟨by decide, by decide⟩

/-- Claim C7: deletion is two-phase and atomic on failure — the store's
delete is consulted first, the tenant record is removed only on success
(other records untouched), on failure the state is returned unchanged
with `false`, and deleting the active tenant clears the active selection
and the chat history. -/
theorem delete_rag_instance_two_phase (st : SessionState) (iid : Nat) :
    (st.instances.find? (fun p => p.1 == iid) = none →
      delete_rag_instance st iid = (st, false)) ∧
    (∀ p, st.instances.find? (fun r => r.1 == iid) = some p → p.2.deleteOk = false →
      delete_rag_instance st iid = (st, false)) ∧
    (∀ p, st.instances.find? (fun r => r.1 == iid) = some p → p.2.deleteOk = true →
      (delete_rag_instance st iid).2 = true ∧
      (delete_rag_instance st iid).1.instances.find? (fun r => r.1 == iid) = none ∧
      (∀ j, j ≠ iid → (delete_rag_instance st iid).1.instances.find? (fun r => r.1 == j) =
        st.instances.find? (fun r => r.1 == j)) ∧
      (st.currentInst = some iid →
        (delete_rag_instance st iid).1.currentInst = none ∧
        (delete_rag_instance st iid).1.messages = []) ∧
      (st.currentInst ≠ some iid →
        (delete_rag_instance st iid).1.currentInst = st.currentInst ∧
        (delete_rag_instance st iid).1.messages = st.messages)) := by
  refine ⟨?_, ?_, ?_⟩
  · intro h
    simp [delete_rag_instance, h]
  · intro p hp hdel
    simp [delete_rag_instance, hp, hdel]
  · intro p hp hdel
    have hrm : (st.instances.filter (fun r => r.1 != iid)).find? (fun r => r.1 == iid)
        = none := by
      rw [List.find?_eq_none]
      intro x hx
      have hxf := (List.mem_filter.mp hx).2
      simp only [bne_iff_ne, ne_eq] at hxf
      simp [hxf]
    by_cases hcur : st.currentInst = some iid
    · simp [delete_rag_instance, hp, hdel, hcur, hrm, -List.find?_filter]
      intro j hj
      exact find_filter_ne_key st.instances iid j hj
    · simp [delete_rag_instance, hp, hdel, hcur, hrm, -List.find?_filter]
      intro j hj
      exact find_filter_ne_key st.instances iid j hj

/-- Witness for C7: deleting the active of two tenants (store delete
succeeding) reports success, removes the record and clears the
conversational state. -/
theorem delete_rag_instance_two_phase_witness :
    (delete_rag_instance ⟨[(1, ⟨true⟩), (2, ⟨true⟩)], some 1, ["hi"]⟩ 1).2 = true ∧
    (delete_rag_instance ⟨[(1, ⟨true⟩), (2, ⟨true⟩)], some 1, ["hi"]⟩ 1).1.instances.find?
        (fun r => r.1 == 1) = none ∧
    (delete_rag_instance ⟨[(1, ⟨true⟩), (2, ⟨true⟩)], some 1, ["hi"]⟩ 1).1.currentInst
        = none ∧
    (delete_rag_instance ⟨[(1, ⟨true⟩), (2, ⟨true⟩)], some 1, ["hi"]⟩ 1).1.messages = [] := by
  have h := (delete_rag_instance_two_phase ⟨[(1, ⟨true⟩), (2, ⟨true⟩)], some 1, ["hi"]⟩ 1).2.2
    (1, ⟨true⟩) (by decide) rfl
  exact ⟨h.1, h.2.1, (h.2.2.2.1 rfl).1, (h.2.2.2.1 rfl).2⟩

/-- Claim C9: searching an empty store (count 0, or an uninitialized
collection) returns `[]` without consulting the index; otherwise the
index is asked for exactly `min k count` results (the result depends only
on the query's value at that clamped size, which never exceeds the record
count). -/
theorem similarity_search_empty_and_clamped (st : CStore) (q : String) (k : Nat) :
    (storeCount st = 0 → similarity_search st q k = []) ∧
    (∀ c c', st.collection = some c → c'.count = c.count →
      c'.query q (min k c.count) = c.query q (min k c.count) →
      similarity_search ⟨some c'⟩ q k = similarity_search st q k) ∧
    (∀ c, st.collection = some c → min k c.count ≤ c.count ∧ min k c.count ≤ k) := by
  refine ⟨?_, ?_, ?_⟩
  · intro h
    match hc : st.collection with
    | none => simp [similarity_search, hc]
    | some c =>
      have hz : c.count = 0 := by simpa [storeCount, hc] using h
      simp [similarity_search, hc, hz]
  · intro c c' hc hcnt hq
    simp [similarity_search, hc, hcnt, hq]
  · intro c hc
    exact ⟨Nat.min_le_right .., Nat.min_le_left ..⟩

/-- Witness for C9 on a concrete empty store. -/
theorem similarity_search_empty_witness :
    storeCount ⟨some ⟨0, fun _ _ => none⟩⟩ = 0 ∧
      similarity_search ⟨some ⟨0, fun _ _ => none⟩⟩ "" 5 = [] :=
  ⟨rfl, (similarity_search_empty_and_clamped ⟨some ⟨0, fun _ _ => none⟩⟩ "" 5).1 rfl⟩

/-- Witness for C5: two texts supplied with one duplicated id receive the
two distinct fresh ids 0 and 1. -/
theorem add_texts_regenerates_on_duplicate_witness :
    ((⟨true, 0, []⟩ : VecStore).available = true ∧ (["ta", "tb"] : List String) ≠ [] ∧
        ¬ ([7, 7] : List Nat).Nodup) ∧
      ((⟨true, 0, []⟩ : VecStore).add_texts ["ta", "tb"] (some [7, 7])).2 =
        freshIds 0 2 ∧
      ((⟨true, 0, []⟩ : VecStore).add_texts ["ta", "tb"] (some [7, 7])).2.Nodup := by
  refine ⟨⟨rfl, by decide, by decide⟩, ?_, ?_⟩
  · exact (add_texts_regenerates_on_duplicate ⟨true, 0, []⟩ ["ta", "tb"] [7, 7] rfl
      (by decide) (by decide)).1
  · exact (add_texts_regenerates_on_duplicate ⟨true, 0, []⟩ ["ta", "tb"] [7, 7] rfl
      (by decide) (by decide)).2.2

end RAGAI
